import Mathlib

/-! Verification of the badabing regex-to-minimal-DFA toolchain.

The C sources (src/backend/c/regex2mindfa_compiler.c and dfa_checker.c) are
embedded shallowly: bytes are Nat, the global arrays are lists, every die()
site surfaces as an Except error, and the worklist loops carry explicit fuel
(chosen large enough that no run the C program accepts can exhaust it). -/

namespace Badabing

/-- Error taxonomy: one constructor per family of die() sites. -/
inductive Err where
  | badAlphabet
  | emptyRegex
  | badPatternChar
  | explicitDot
  | nonAsciiPatternByte
  | unbalancedParens
  | unknownChar
  | malformedPostfix
  | nfaTooLarge
  | dfaTooLarge
  | outOfFuel
  deriving DecidableEq, Repr

/-- C isspace over unsigned bytes: space, tab, LF, VT, FF, CR. -/
def isspace_c (c : Nat) : Bool :=
  c == 32 || c == 9 || c == 10 || c == 11 || c == 12 || c == 13

/-- is_meta from the compiler: the six regex meta-operators. -/
def is_meta (c : Nat) : Bool :=
  c == 124 || c == 43 || c == 42 || c == 40 || c == 41 || c == 46

/-- is_alphabet_symbol: linear scan of the alphabet list. -/
def is_alphabet_symbol (alpha : List Nat) (c : Nat) : Bool :=
  alpha.contains c

/-- Scan loop of parse_alphabet_line: skip separators, validate and
accumulate symbols in order of first appearance. -/
def parse_alphabet_go (acc : List Nat) : List Nat → Except Err (List Nat)
  | [] => .ok acc
  | c :: rest =>
    if c == 10 || c == 13 then parse_alphabet_go acc rest
    else if isspace_c c || c == 44 || c == 59 then parse_alphabet_go acc rest
    else if c == 1 then .error .badAlphabet
    else if is_meta c then .error .badAlphabet
    else if c < 32 then .error .badAlphabet
    else if acc.contains c then .error .badAlphabet
    else if 128 ≤ acc.length then .error .badAlphabet
    else parse_alphabet_go (acc ++ [c]) rest

/-- parse_alphabet_line: tokenize line 2; reject empty result. -/
def parse_alphabet_line (line : List Nat) : Except Err (List Nat) :=
  match parse_alphabet_go [] line with
  | .error e => .error e
  | .ok acc => if acc.length == 0 then .error .badAlphabet else .ok acc

/-- preprocess_regex: drop CR/LF and whitespace, rewrite the five-byte
ASCII token <eps> and the UTF-8 pair 0xCE 0xB5 to the internal sentinel
byte 1 (EPS_TOK); every other byte passes through. -/
def preprocess_regex : List Nat → List Nat
  | [] => []
  | 60 :: 101 :: 112 :: 115 :: 62 :: rest => 1 :: preprocess_regex rest
  | 206 :: 181 :: rest => 1 :: preprocess_regex rest
  | c :: rest =>
    if c == 13 || c == 10 then preprocess_regex rest
    else if isspace_c c then preprocess_regex rest
    else c :: preprocess_regex rest

/-- check_parentheses_balanced, with the running balance as an integer so
the negative-depth check is the same test the C performs. -/
def check_parens_go (bal : Int) : List Nat → Except Err Unit
  | [] => if bal ≠ 0 then .error .unbalancedParens else .ok ()
  | c :: rest =>
    let bal2 : Int := if c == 40 then bal + 1 else if c == 41 then bal - 1 else bal
    if bal2 < 0 then .error .unbalancedParens else check_parens_go bal2 rest

/-- check_parentheses_balanced on a whole stream. -/
def check_parentheses_balanced (s : List Nat) : Except Err Unit :=
  check_parens_go 0 s

/-- check_regex_symbols_valid: every byte must be the epsilon sentinel, an
alphabet symbol, or one of | + * ( ); an explicit dot, a byte at or above
128, and anything else each have their own die site. -/
def check_regex_symbols_valid (alpha : List Nat) : List Nat → Except Err Unit
  | [] => .ok ()
  | c :: rest =>
    if c == 1 then check_regex_symbols_valid alpha rest
    else if is_alphabet_symbol alpha c then check_regex_symbols_valid alpha rest
    else if c == 124 || c == 43 || c == 42 || c == 40 || c == 41 then
      check_regex_symbols_valid alpha rest
    else if c == 46 then .error .explicitDot
    else if 128 ≤ c then .error .nonAsciiPatternByte
    else .error .badPatternChar

/-- is_atom_end: a byte that can end an atom (symbol, epsilon, right paren,
star). -/
def is_atom_end (alpha : List Nat) (c : Nat) : Bool :=
  is_alphabet_symbol alpha c || c == 1 || c == 41 || c == 42

/-- is_atom_start: a byte that can start an atom (symbol, epsilon, left
paren). -/
def is_atom_start (alpha : List Nat) (c : Nat) : Bool :=
  is_alphabet_symbol alpha c || c == 1 || c == 40

/-- need_concat: insert a concatenation dot between a and b. -/
def need_concat (alpha : List Nat) (a b : Nat) : Bool :=
  is_atom_end alpha a && is_atom_start alpha b

/-- add_concat_ops: copy the stream, inserting byte 46 between each
adjacent pair that need_concat selects. -/
def add_concat_ops (alpha : List Nat) : List Nat → List Nat
  | [] => []
  | [a] => [a]
  | a :: b :: rest =>
    if need_concat alpha a b then a :: 46 :: add_concat_ops alpha (b :: rest)
    else a :: add_concat_ops alpha (b :: rest)

/-- Modelled from the claim wording only (for the refinement comparison of
the concatenation-insertion rule): a marker goes between a and b iff a is an
alphabet symbol, the epsilon sentinel, a right paren or a star, and b is an
alphabet symbol, the epsilon sentinel or a left paren. -/
def concat_mark_spec (alpha : List Nat) (a b : Nat) : Prop :=
  (a ∈ alpha ∨ a = 1 ∨ a = 41 ∨ a = 42) ∧ (b ∈ alpha ∨ b = 1 ∨ b = 40)

instance (alpha : List Nat) (a b : Nat) : Decidable (concat_mark_spec alpha a b) := by
  unfold concat_mark_spec; infer_instance

/-- Spec-side concatenation insertion, literally following the iff of the
claim. -/
def add_concat_spec (alpha : List Nat) : List Nat → List Nat
  | [] => []
  | [a] => [a]
  | a :: b :: rest =>
    if concat_mark_spec alpha a b then a :: 46 :: add_concat_spec alpha (b :: rest)
    else a :: add_concat_spec alpha (b :: rest)

/-- Operator precedence of the shunting-yard pass. -/
def prec (op : Nat) : Nat :=
  if op == 42 then 3 else if op == 46 then 2
  else if op == 124 || op == 43 then 1 else 0

/-- is_left_assoc: every operator except star. -/
def is_left_assoc (op : Nat) : Bool := op != 42

/-- Pop loop on a right paren: emit operators until the matching left paren
(none means stack underflow, the mismatched-parentheses die site).
Returns (emitted operators, stack below the popped left paren). -/
def pop_until_lparen : List Nat → Option (List Nat × List Nat)
  | [] => none
  | o :: rest =>
    if o == 40 then some ([], rest)
    else
      match pop_until_lparen rest with
      | none => none
      | some (out, st) => some (o :: out, st)

/-- Pop loop on a binary operator: emit stacked operators of
greater-or-equal precedence (strictly greater for the right-associative
star), stopping at a left paren. Returns (emitted, remaining stack). -/
def pop_while_prec (c : Nat) : List Nat → List Nat × List Nat
  | [] => ([], [])
  | o2 :: rest =>
    if o2 == 40 then ([], o2 :: rest)
    else if (is_left_assoc c && prec c ≤ prec o2)
         || (!is_left_assoc c && prec c < prec o2) then
      let (p, r) := pop_while_prec c rest
      (o2 :: p, r)
    else ([], o2 :: rest)

/-- Main shunting-yard loop of to_postfix; the operator stack grows at the
head. At the end the stack is flushed; a surviving left paren is the
mismatched-parentheses die site. -/
def to_postfix_go (alpha : List Nat) (out st : List Nat) :
    List Nat → Except Err (List Nat)
  | [] => if st.contains 40 then .error .unbalancedParens else .ok (out ++ st)
  | c :: rest =>
    if is_alphabet_symbol alpha c || c == 1 then
      to_postfix_go alpha (out ++ [c]) st rest
    else if c == 40 then to_postfix_go alpha out (c :: st) rest
    else if c == 41 then
      match pop_until_lparen st with
      | none => .error .unbalancedParens
      | some (popped, st2) => to_postfix_go alpha (out ++ popped) st2 rest
    else if c == 42 then to_postfix_go alpha (out ++ [c]) st rest
    else if c == 124 || c == 43 || c == 46 then
      let (p, st2) := pop_while_prec c st
      to_postfix_go alpha (out ++ p) (c :: st2) rest
    else .error .unknownChar

/-- to_postfix: convert the concatenation-marked stream to postfix. -/
def postfix_of_regex (alpha : List Nat) (regex : List Nat) : Except Err (List Nat) :=
  to_postfix_go alpha [] [] regex

/-- An NFA edge to state dst; sym = 0 is an epsilon edge, otherwise sym is
the byte. -/
structure Edge where
  dst : Nat
  sym : Nat
  deriving DecidableEq, Repr

/-- The growing Thompson NFA: a state count and per-state ordered edge
lists (edges.length = states is an invariant of every constructor). -/
structure Nfa where
  states : Nat
  edges : List (List Edge)
  deriving DecidableEq, Repr

/-- Replace the element at an index, leaving the list unchanged when the
index is out of range. -/
def listModify {α : Type} : List α → Nat → (α → α) → List α
  | [], _, _ => []
  | x :: xs, 0, f => f x :: xs
  | x :: xs, n + 1, f => x :: listModify xs n f

/-- new_nfa_state: append a fresh state with no edges; die above 4096. -/
def new_nfa_state (g : Nfa) : Except Err (Nat × Nfa) :=
  if 4096 ≤ g.states then .error .nfaTooLarge
  else .ok (g.states, ⟨g.states + 1, g.edges ++ [[]]⟩)

/-- add_edge: append one edge to the source state edge list. -/
def add_edge (g : Nfa) (src dst sym : Nat) : Nfa :=
  { g with edges := listModify g.edges src (fun es => es ++ [⟨dst, sym⟩]) }

/-- A Thompson fragment: entry and exit state. -/
structure Frag where
  start : Nat
  accept : Nat
  deriving DecidableEq, Repr

/-- The postfix_to_nfa evaluation loop over the fragment stack (head of
the list is the stack top, as fs_pop takes the most recent push). -/
def postfix_to_nfa_go (alpha : List Nat) (g : Nfa) (st : List Frag) :
    List Nat → Except Err (Nfa × List Frag)
  | [] => .ok (g, st)
  | c :: rest =>
    if is_alphabet_symbol alpha c then do
      let (s, g) ← new_nfa_state g
      let (t, g) ← new_nfa_state g
      postfix_to_nfa_go alpha (add_edge g s t c) (⟨s, t⟩ :: st) rest
    else if c == 1 then do
      let (s, g) ← new_nfa_state g
      let (t, g) ← new_nfa_state g
      postfix_to_nfa_go alpha (add_edge g s t 0) (⟨s, t⟩ :: st) rest
    else if c == 46 then
      match st with
      | f2 :: f1 :: st2 =>
        postfix_to_nfa_go alpha (add_edge g f1.accept f2.start 0) (⟨f1.start, f2.accept⟩ :: st2) rest
      | _ => .error .malformedPostfix
    else if c == 124 || c == 43 then
      match st with
      | f2 :: f1 :: st2 => do
        let (s, g) ← new_nfa_state g
        let (t, g) ← new_nfa_state g
        let g := add_edge g s f1.start 0
        let g := add_edge g s f2.start 0
        let g := add_edge g f1.accept t 0
        let g := add_edge g f2.accept t 0
        postfix_to_nfa_go alpha g (⟨s, t⟩ :: st2) rest
      | _ => .error .malformedPostfix
    else if c == 42 then
      match st with
      | f :: st2 => do
        let (s, g) ← new_nfa_state g
        let (t, g) ← new_nfa_state g
        let g := add_edge g s f.start 0
        let g := add_edge g s t 0
        let g := add_edge g f.accept f.start 0
        let g := add_edge g f.accept t 0
        postfix_to_nfa_go alpha g (⟨s, t⟩ :: st2) rest
      | _ => .error .malformedPostfix
    else .error .malformedPostfix

/-- postfix_to_nfa: the stack must hold exactly one fragment at the end. -/
def postfix_to_nfa (alpha : List Nat) (post : List Nat) : Except Err (Nfa × Frag) := do
  let (g, st) ← postfix_to_nfa_go alpha ⟨0, []⟩ [] post
  match st with
  | [f] => .ok (g, f)
  | _ => .error .malformedPostfix

/-- Bitset bit read (false beyond the width, like an all-zero word). -/
def bs_get (b : List Bool) (i : Nat) : Bool := b.getD i false

/-- Bitset bit set (no-op beyond the width; every caller stays inside). -/
def bs_set (b : List Bool) (i : Nat) : List Bool := b.set i true

/-- bs_empty: all words zero. -/
def bs_empty (b : List Bool) : Bool := b.all (fun x => !x)

/-- Outgoing edge list of one NFA state. -/
def edges_of (g : Nfa) (s : Nat) : List Edge := g.edges.getD s []

/-- One saturation layer of the epsilon-closure worklist: add every state
reached by one epsilon edge from the current set. -/
def eps_step (g : Nfa) (b : List Bool) : List Bool :=
  (List.range g.states).foldl
    (fun acc u =>
      if bs_get b u then
        (edges_of g u).foldl (fun a2 e => if e.sym == 0 then bs_set a2 e.dst else a2) acc
      else acc)
    b

/-- eps_closure: the worklist saturation reaches its fixpoint within
g.states layers, so iterating the layer step that many times computes the
same set the C worklist computes. -/
def eps_closure (g : Nfa) (b : List Bool) : List Bool :=
  (eps_step g)^[g.states] b

/-- move_on_symbol: union of the sym-labeled successors of the members. -/
def move_on_symbol (g : Nfa) (b : List Bool) (sym : Nat) : List Bool :=
  (List.range g.states).foldl
    (fun acc s =>
      if bs_get b s then
        (edges_of g s).foldl (fun a2 e => if e.sym == sym then bs_set a2 e.dst else a2) acc
      else acc)
    (List.replicate g.states false)

/-- One DFA state of the subset construction: the closure bitset, the
accepting flag, and the transition row (none is the missing cell -1). -/
structure DfaState where
  set : List Bool
  is_accept : Bool
  trans : List (Option Nat)
  deriving DecidableEq, Repr, Inhabited

/-- find_dfa_state: dedup lookup by bitset equality. -/
def find_dfa_state (dfa : List DfaState) (s : List Bool) : Option Nat :=
  dfa.findIdx? (fun d => d.set == s)

/-- dfa_add_state: append a state for closure s with an all-missing row;
die above 4096 states. -/
def dfa_add_state (k : Nat) (nfa_accept : Nat) (dfa : List DfaState) (s : List Bool) :
    Except Err (Nat × List DfaState) :=
  if 4096 ≤ dfa.length then .error .dfaTooLarge
  else .ok (dfa.length, dfa ++ [⟨s, bs_get s nfa_accept, List.replicate k none⟩])

/-- The body of the subset construction for one dequeued state id and one
alphabet position ai carrying symbol sym: fill the cell, adding and
enqueueing a fresh DFA state when the closure is new. -/
def dfa_step_sym (g : Nfa) (nfa_accept k id : Nat)
    (st : List DfaState × List Nat) (ai sym : Nat) :
    Except Err (List DfaState × List Nat) :=
  let (dfa, q) := st
  let mv := move_on_symbol g (dfa.getD id default).set sym
  if bs_empty mv then
    .ok (listModify dfa id (fun d => { d with trans := d.trans.set ai none }), q)
  else
    let cl := eps_closure g mv
    match find_dfa_state dfa cl with
    | some ex =>
      .ok (listModify dfa id (fun d => { d with trans := d.trans.set ai (some ex) }), q)
    | none => do
      let (ex, dfa2) ← dfa_add_state k nfa_accept dfa cl
      .ok (listModify dfa2 id (fun d => { d with trans := d.trans.set ai (some ex) }), q ++ [ex])

/-- Inner loop of nfa_to_dfa over the alphabet positions of one state. -/
def dfa_process_syms (g : Nfa) (nfa_accept k id : Nat) :
    List (Nat × Nat) → List DfaState × List Nat → Except Err (List DfaState × List Nat)
  | [], st => .ok st
  | (ai, sym) :: rest, st => do
    let st2 ← dfa_step_sym g nfa_accept k id st ai sym
    dfa_process_syms g nfa_accept k id rest st2

/-- FIFO worklist loop of nfa_to_dfa; the fuel exceeds the 4096-state cap,
so no run the C accepts exhausts it. -/
def nfa_to_dfa_go (g : Nfa) (nfa_accept : Nat) (alpha : List Nat) :
    Nat → List DfaState → List Nat → Except Err (List DfaState)
  | 0, _, _ => .error .outOfFuel
  | _ + 1, dfa, [] => .ok dfa
  | fuel + 1, dfa, id :: q => do
    let (dfa2, q2) ← dfa_process_syms g nfa_accept alpha.length id alpha.enum (dfa, q)
    nfa_to_dfa_go g nfa_accept alpha fuel dfa2 q2

/-- nfa_to_dfa: seed with the closure of the NFA start state. -/
def nfa_to_dfa (g : Nfa) (alpha : List Nat) (nfa_start nfa_accept : Nat) :
    Except Err (List DfaState) := do
  let init := bs_set (List.replicate g.states false) nfa_start
  let init_cl := eps_closure g init
  let (_, dfa) ← dfa_add_state alpha.length nfa_accept [] init_cl
  nfa_to_dfa_go g nfa_accept alpha 8192 dfa [0]

/-- Write class index i into cls for every member of the block. -/
def cls_assign (cls : List Nat) (blk : List Nat) (i : Nat) : List Nat :=
  blk.foldl (fun c s => c.set s i) cls

/-- The completed transition table T of dfa_minimize and write_min_dfa:
missing cells become the dead state N-1 and, when a dead state is needed,
its self-loop row is appended. A missing cell exists only when need_dead
holds, so the N-1 default is exactly the rewrite the C performs. -/
def hop_T (k : Nat) (dfa : List DfaState) (need_dead : Bool) (N : Nat) : List (List Nat) :=
  dfa.map (fun d => d.trans.map (fun c => c.getD (N - 1)))
    ++ (if need_dead then [List.replicate k (N - 1)] else [])

/-- The completed accepting vector A: the dead state is non-accepting. -/
def hop_A (dfa : List DfaState) (need_dead : Bool) : List Bool :=
  dfa.map (fun d => d.is_accept) ++ (if need_dead then [false] else [])

/-- Modify the inner list at outer index a, inner index q. -/
def listModify2 (inv : List (List (List Nat))) (a q : Nat) (f : List Nat → List Nat) :
    List (List (List Nat)) :=
  listModify inv a (fun row => listModify row q f)

/-- Reverse-transition buckets inv[a][q] = list of p with T[p][a] = q, in
increasing p as the C fills them. -/
def build_inv (k N : Nat) (T : List (List Nat)) : List (List (List Nat)) :=
  (List.range N).foldl
    (fun inv p =>
      (List.range k).foldl
        (fun inv2 a => listModify2 inv2 a ((T.getD p []).getD a 0) (fun l => l ++ [p]))
        inv)
    (List.replicate k (List.replicate N []))

/-- Membership mark over states: X = union of inv[a][q] for q in the
popped block. -/
def hop_mark (N : Nat) (inv : List (List (List Nat))) (a : Nat) (ablk : List Nat) :
    List Bool :=
  ablk.foldl
    (fun mark q => ((inv.getD a []).getD q []).foldl (fun m p => m.set p true) mark)
    (List.replicate N false)

/-- Worklist update after a block with index yi splits into Y1 (kept at
yi, n1 members) and Y2 (appended as newi, n2 members): if yi is already on
the worklist the new id joins it; otherwise the half with fewer members is
pushed, and on equal sizes the kept block yi is pushed. -/
def hop_w_update (W : List Nat) (yi newi n1 n2 : Nat) : List Nat :=
  if W.contains yi then newi :: W
  else if n1 ≤ n2 then yi :: W else newi :: W

/-- Split one block yi against the mark, updating partition, class map
and worklist; blocks fully inside or fully outside the mark are kept. -/
def hop_split_block (mark : List Bool) (P : List (List Nat)) (cls : List Nat)
    (W : List Nat) (yi : Nat) : List (List Nat) × List Nat × List Nat :=
  let Y := P.getD yi []
  let cnt := Y.countP (fun s => bs_get mark s)
  if cnt == 0 || cnt == Y.length then (P, cls, W)
  else
    let Y1 := Y.filter (fun s => bs_get mark s)
    let Y2 := Y.filter (fun s => !bs_get mark s)
    let newi := P.length
    let P2 := P.set yi Y1 ++ [Y2]
    let cls2 := cls_assign (cls_assign cls Y1 yi) Y2 newi
    let W2 := hop_w_update W yi newi Y1.length Y2.length
    (P2, cls2, W2)

/-- The yi loop of the refinement: visit every block index below the
current (growing) partition size. -/
def hop_refine_blocks (mark : List Bool) :
    Nat → Nat → List (List Nat) → List Nat → List Nat →
    Except Err (List (List Nat) × List Nat × List Nat)
  | 0, _, _, _, _ => .error .outOfFuel
  | fuel + 1, yi, P, cls, W =>
    if yi < P.length then
      let (P2, cls2, W2) := hop_split_block mark P cls W yi
      hop_refine_blocks mark fuel (yi + 1) P2 cls2 W2
    else .ok (P, cls, W)

/-- The symbol loop of the refinement for one popped block index: the mark
is recomputed from the current contents of that block. -/
def hop_syms (N : Nat) (inv : List (List (List Nat))) (ablock : Nat) :
    List Nat → List (List Nat) × List Nat × List Nat →
    Except Err (List (List Nat) × List Nat × List Nat)
  | [], st => .ok st
  | a :: arest, (P, cls, W) => do
    let mark := hop_mark N inv a (P.getD ablock [])
    let st2 ← hop_refine_blocks mark (N + 2) 0 P cls W
    hop_syms N inv ablock arest st2

/-- The outer worklist loop of Hopcroft refinement; W is a stack whose
head is the most recently pushed id, as in the C array. -/
def hop_main (N k : Nat) (inv : List (List (List Nat))) :
    Nat → List (List Nat) × List Nat × List Nat →
    Except Err (List (List Nat) × List Nat)
  | 0, _ => .error .outOfFuel
  | fuel + 1, (P, cls, W) =>
    match W with
    | [] => .ok (P, cls)
    | ablock :: W2 => do
      let st ← hop_syms N inv ablock (List.range k) (P, cls, W2)
      hop_main N k inv fuel st

/-- The refinement run of dfa_minimize over the completed table T with
accepting vector A and state count N: when one side of the initial
accepting/non-accepting partition is empty everything collapses to one
class, otherwise Hopcroft refinement runs to the worklist fixpoint.
Returns the class map and the class count. -/
def dfa_minimize_core (k N : Nat) (T : List (List Nat)) (A : List Bool) :
    Except Err (List Nat × Nat) :=
  let nF := (List.range N).countP (fun s => A.getD s false)
  let nNF := (List.range N).countP (fun s => !A.getD s false)
  if nF == 0 || nNF == 0 then .ok (List.replicate N 0, 1)
  else
    let P0 := (List.range N).filter (fun s => A.getD s false)
    let P1 := (List.range N).filter (fun s => !A.getD s false)
    let cls := cls_assign (cls_assign (List.replicate N 0) P0 0) P1 1
    let W := if P0.length ≤ P1.length then [0] else [1]
    let inv := build_inv k N T
    match hop_main N k inv (N + 2) ([P0, P1], cls, W) with
    | .error e => .error e
    | .ok (P2, cls2) => .ok (cls2, P2.length)

/-- dfa_minimize: complete the DFA with a dead state when some cell is
missing, then refine the accepting/non-accepting partition to a fixpoint.
Returns the class map, the class count, and the need_dead flag. -/
def dfa_minimize (k : Nat) (dfa : List DfaState) : Except Err (List Nat × Nat × Bool) :=
  let need_dead := dfa.any (fun d => d.trans.any (fun c => c == none))
  let N := dfa.length + (if need_dead then 1 else 0)
  match dfa_minimize_core k N (hop_T k dfa need_dead N) (hop_A dfa need_dead) with
  | .error e => .error e
  | .ok (cls, m) => .ok (cls, m, need_dead)

/-- The canonical emitted DFA table: alphabet, state count, start class,
accepting classes in increasing order, and one transition row per class. -/
structure MinDfa where
  k : Nat
  alphabet : List Nat
  n : Nat
  start : Nat
  accept : List Nat
  trans : List (List Nat)
  deriving DecidableEq, Repr

/-- write_min_dfa: rebuild the completed table, pick the smallest member
of each class as its representative, and read the rows off through cls. -/
def write_min_dfa (alpha : List Nat) (dfa : List DfaState) (cls : List Nat)
    (min_n : Nat) (need_dead : Bool) : MinDfa :=
  let k := alpha.length
  let N := dfa.length + (if need_dead then 1 else 0)
  let T := hop_T k dfa need_dead N
  let A := hop_A dfa need_dead
  let rep : Nat → Option Nat := fun c => (List.range N).find? (fun s => cls.getD s 0 == c)
  let accb : Nat → Bool := fun c =>
    (List.range N).any (fun s => A.getD s false && (cls.getD s 0 == c))
  let accept := (List.range min_n).filter accb
  let trans := (List.range min_n).map (fun c =>
    let r := (rep c).getD 0
    (List.range k).map (fun a => cls.getD ((T.getD r []).getD a 0) 0))
  ⟨k, alpha, min_n, cls.getD 0 0, accept, trans⟩

/-- One emitted row, integers separated by single blanks. -/
def render_row (row : List Nat) : String :=
  String.intercalate " " (row.map toString)

/-- The exact byte-for-byte text the writer prints. -/
def render_min_dfa (d : MinDfa) : String :=
  "ALPHABET " ++ toString d.k ++ " " ++ String.mk (d.alphabet.map Char.ofNat) ++ "\n" ++
  "STATES " ++ toString d.n ++ "\n" ++
  "START " ++ toString d.start ++ "\n" ++
  "ACCEPT " ++ toString d.accept.length ++
    String.join (d.accept.map (fun a => " " ++ toString a)) ++ "\n" ++
  "TRANS\n" ++
  String.join (d.trans.map (fun row => render_row row ++ "\n")) ++
  "END\n"

/-- The whole compiler pipeline of main, from the two input lines to the
emitted table; every die() site propagates as an error. -/
def compile (line_regex line_alpha : List Nat) : Except Err MinDfa :=
  match parse_alphabet_line line_alpha with
  | .error e => .error e
  | .ok alpha =>
    if (preprocess_regex line_regex).length == 0 then .error .emptyRegex
    else
      match check_regex_symbols_valid alpha (preprocess_regex line_regex) with
      | .error e => .error e
      | .ok _ =>
        match check_parentheses_balanced (preprocess_regex line_regex) with
        | .error e => .error e
        | .ok _ =>
          match postfix_of_regex alpha (add_concat_ops alpha (preprocess_regex line_regex)) with
          | .error e => .error e
          | .ok post =>
            match postfix_to_nfa alpha post with
            | .error e => .error e
            | .ok (g, frag) =>
              match nfa_to_dfa g alpha frag.start frag.accept with
              | .error e => .error e
              | .ok dfa =>
                match dfa_minimize alpha.length dfa with
                | .error e => .error e
                | .ok (cls, min_n, need_dead) =>
                  .ok (write_min_dfa alpha dfa cls min_n need_dead)

/-- Inversion of a successful compile: every pass succeeded and the output
is the writer applied to the minimizer result. -/
theorem compile_inv (lr la : List Nat) (d : MinDfa) (h : compile lr la = .ok d) :
    ∃ alpha dfa cls min_n need_dead,
      parse_alphabet_line la = .ok alpha ∧
      (preprocess_regex lr).length ≠ 0 ∧
      (∃ u, check_regex_symbols_valid alpha (preprocess_regex lr) = .ok u) ∧
      dfa_minimize alpha.length dfa = .ok (cls, min_n, need_dead) ∧
      d = write_min_dfa alpha dfa cls min_n need_dead := by
  unfold compile at h
  split at h
  · exact Except.noConfusion h
  next alpha hparse =>
    split at h
    · exact Except.noConfusion h
    next hlen =>
      split at h
      · exact Except.noConfusion h
      next u hcheck =>
        split at h
        · exact Except.noConfusion h
        next =>
          split at h
          · exact Except.noConfusion h
          next =>
            split at h
            · exact Except.noConfusion h
            next g frag hpn =>
              split at h
              · exact Except.noConfusion h
              next dfa hdfa =>
                split at h
                · exact Except.noConfusion h
                next cls min_n need_dead hmin =>
                  injection h with h2
                  exact ⟨alpha, dfa, cls, min_n, need_dead, hparse,
                    by simpa using hlen, ⟨u, hcheck⟩, hmin, h2.symm⟩

/-- C1 counterexample: compiling the pattern a|b (bytes 97 124 98) over the
alphabet ab yields a minimized DFA with 3 states and a single accepting
state, not the 4 states and two accepting states the claim asserts. -/
theorem claim_C1_counterexample :
    (compile [97, 124, 98] [97, 98]).map MinDfa.n = .ok 3 ∧
    (compile [97, 124, 98] [97, 98]).map (fun d => d.accept.length) = .ok 1 ∧
    (3 : Nat) ≠ 4 ∧ (1 : Nat) ≠ 2 := by
  refine ⟨by rfl, by rfl, by decide, by decide⟩

/-- C1 amended: compiling the pattern a|b over the alphabet ab emits a
minimized DFA with exactly 3 states — a start state, one accepting state
(the two accept-after-a and accept-after-b subset states are equivalent and
merge), and a dead state — of which exactly one is accepting, with
symmetrical transitions on a and b. -/
theorem claim_C1_amended :
    compile [97, 124, 98] [97, 98] =
      .ok ⟨2, [97, 98], 3, 1, [0], [[2, 2], [0, 0], [2, 2]]⟩ := by
  rfl

/-- C3: compiling the pattern a* (bytes 97 42) with the one-symbol alphabet
a produces a 1-state DFA whose single state is accepting and self-loops on
a, and the emitted file is exactly ALPHABET 1 a, STATES 1, START 0,
ACCEPT 1 0, TRANS row 0, END. -/
theorem claim_C3 :
    compile [97, 42] [97] = .ok ⟨1, [97], 1, 0, [0], [[0]]⟩ ∧
    (compile [97, 42] [97]).map render_min_dfa =
      .ok "ALPHABET 1 a\nSTATES 1\nSTART 0\nACCEPT 1 0\nTRANS\n0\nEND\n" := by
  refine ⟨by rfl, by rfl⟩

/-- C4 counterexample: in the worklist update of the refinement, when the
split block is not on the worklist and the two halves have equal size
(here 1 and 1, with kept index 0 and new index 1), the id that is pushed
is the kept block 0, not the new block 1 the claim requires. -/
theorem claim_C4_counterexample :
    hop_w_update [] 0 1 1 1 = [0] ∧ (0 : Nat) ≠ 1 := by
  refine ⟨by rfl, by decide⟩

/-- C4 amended: when a block Y not on the worklist splits into Y1 (kept at
the old index, n1 members) and Y2 (new index, n2 members), the worklist
receives whichever half has fewer members, and when the sizes are equal it
receives the kept block Y1, not the new block Y2. -/
theorem claim_C4_amended (W : List Nat) (yi newi n1 n2 : Nat)
    (h : W.contains yi = false) :
    (n1 < n2 → hop_w_update W yi newi n1 n2 = yi :: W) ∧
    (n2 < n1 → hop_w_update W yi newi n1 n2 = newi :: W) ∧
    (n1 = n2 → hop_w_update W yi newi n1 n2 = yi :: W) := by
  unfold hop_w_update
  rw [h]
  refine ⟨fun h1 => ?_, fun h1 => ?_, fun h1 => ?_⟩
  · simp [Nat.le_of_lt h1]
  · simp [Nat.not_le.mpr h1]
  · simp [Nat.le_of_eq h1]

/-- Witness for C4 amended at a concrete split: worklist empty, kept index
0, new index 1, sizes 2 and 1, so the new smaller half 1 is pushed. -/
theorem claim_C4_amended_witness : hop_w_update [] 0 1 2 1 = [1] := by
  have h := claim_C4_amended [] 0 1 2 1 (by decide)
  exact h.2.1 (by decide)

/-- C5 counterexample: the alphabet line consisting of the single byte 58
(the colon, one of the characters the claim forbids) is accepted, and the
colon is admitted into the alphabet. -/
theorem claim_C5_counterexample :
    parse_alphabet_line [58] = .ok [58] := by rfl

/-- For every accumulator, a scan whose remaining input contains one of
the six meta-operator bytes fails with BadAlphabet. -/
theorem parse_alphabet_go_meta (line : List Nat) :
    ∀ acc c, c ∈ line → is_meta c = true →
      parse_alphabet_go acc line = .error .badAlphabet := by
  induction line with
  | nil => intro acc c hc; cases hc
  | cons x rest ih =>
    intro acc c hc hm
    unfold parse_alphabet_go
    by_cases h1 : x == 10 || x == 13
    · rw [if_pos h1]
      rcases List.mem_cons.mp hc with rfl | hc2
      · exfalso
        revert h1
        unfold is_meta at hm
        simp only [Bool.or_eq_true, beq_iff_eq] at hm ⊢
        omega
      · exact ih acc c hc2 hm
    · rw [if_neg h1]
      by_cases h2 : isspace_c x || x == 44 || x == 59
      · rw [if_pos h2]
        rcases List.mem_cons.mp hc with rfl | hc2
        · exfalso
          revert h2
          simp only [is_meta, isspace_c, Bool.or_eq_true, beq_iff_eq] at hm ⊢
          omega
        · exact ih acc c hc2 hm
      · rw [if_neg h2]
        by_cases h3 : x == 1
        · rw [if_pos h3]
        · rw [if_neg h3]
          by_cases h4 : is_meta x
          · rw [if_pos h4]
          · rw [if_neg h4]
            have hc2 : c ∈ rest := by
              rcases List.mem_cons.mp hc with rfl | hc2
              · exact absurd hm (by simpa using h4)
              · exact hc2
            by_cases h5 : x < 32
            · rw [if_pos h5]
            · rw [if_neg h5]
              by_cases h6 : acc.contains x
              · rw [if_pos h6]
              · rw [if_neg h6]
                by_cases h7 : 128 ≤ acc.length
                · rw [if_pos h7]
                · rw [if_neg h7]
                  exact ih _ c hc2 hm

/-- C5 amended: the alphabet-line characters that trigger BadAlphabet as
meta-operators are exactly | + * ( ) . (bytes 124 43 42 40 41 46): every
alphabet line containing one of them fails with BadAlphabet, whereas the
comma and semicolon act as separators and the bytes : - > ampersand-free
punctuation such as braces are accepted as ordinary symbols. -/
theorem claim_C5_amended (line : List Nat) (c : Nat)
    (hc : c ∈ line) (hm : is_meta c = true) :
    parse_alphabet_line line = .error .badAlphabet := by
  unfold parse_alphabet_line
  rw [parse_alphabet_go_meta line [] c hc hm]

/-- Witness for C5 amended: the one-byte alphabet line holding a star
fails with BadAlphabet. -/
theorem claim_C5_amended_witness :
    parse_alphabet_line [42] = .error .badAlphabet := by
  exact claim_C5_amended [42] 42 (by decide) (by decide)

/-- Membership reading of the alphabet scan. -/
theorem is_alphabet_symbol_iff (alpha : List Nat) (c : Nat) :
    is_alphabet_symbol alpha c = true ↔ c ∈ alpha := by
  simp [is_alphabet_symbol]

/-- C6 counterexample: with the one-byte alphabet 0xFF (255), the pattern
consisting of that same byte — which survives the epsilon rewrites and
whitespace stripping — passes validation and compiles to a 3-state DFA
instead of failing with NonAsciiPatternByte. -/
theorem claim_C6_counterexample :
    check_regex_symbols_valid [255] [255] = .ok () ∧
    (compile [255] [255]).map MinDfa.n = .ok 3 := by
  refine ⟨by rfl, by rfl⟩

/-- A pattern byte that validation passes over: the epsilon sentinel, an
alphabet symbol, or one of the five operator bytes. -/
theorem check_valid_cons_pass (alpha : List Nat) (b : Nat) (s : List Nat)
    (hb : b = 1 ∨ b ∈ alpha ∨ b = 124 ∨ b = 43 ∨ b = 42 ∨ b = 40 ∨ b = 41) :
    check_regex_symbols_valid alpha (b :: s) = check_regex_symbols_valid alpha s := by
  simp only [check_regex_symbols_valid]
  by_cases h1 : b == 1
  · rw [if_pos h1]
  · rw [if_neg h1]
    by_cases h2 : is_alphabet_symbol alpha b
    · rw [if_pos h2]
    · rw [if_neg h2]
      have h3 : (b == 124 || b == 43 || b == 42 || b == 40 || b == 41) = true := by
        rcases hb with rfl | hb | rfl | rfl | rfl | rfl | rfl
        · exact absurd (by decide : ((1 : Nat) == 1) = true) h1
        · exact absurd ((is_alphabet_symbol_iff alpha b).mpr hb) h2
        all_goals decide
      rw [if_pos h3]

/-- Validation never succeeds on a stream holding a byte at or above 128
that is not an alphabet symbol. -/
theorem check_valid_high_byte (alpha : List Nat) :
    ∀ s c, c ∈ s → 128 ≤ c → ¬ c ∈ alpha →
      ∀ u, check_regex_symbols_valid alpha s ≠ .ok u := by
  intro s
  induction s with
  | nil => intro c hc; cases hc
  | cons x rest ih =>
    intro c hc h128 halpha u
    unfold check_regex_symbols_valid
    by_cases h1 : x == 1
    · rw [if_pos h1]
      rcases List.mem_cons.mp hc with rfl | hc2
      · exact absurd (beq_iff_eq.mp h1) (by omega)
      · exact ih c hc2 h128 halpha u
    · rw [if_neg h1]
      by_cases h2 : is_alphabet_symbol alpha x
      · rw [if_pos h2]
        rcases List.mem_cons.mp hc with rfl | hc2
        · exact absurd ((is_alphabet_symbol_iff alpha c).mp h2) halpha
        · exact ih c hc2 h128 halpha u
      · rw [if_neg h2]
        by_cases h3 : x == 124 || x == 43 || x == 42 || x == 40 || x == 41
        · rw [if_pos h3]
          rcases List.mem_cons.mp hc with rfl | hc2
          · revert h3
            simp only [Bool.or_eq_true, beq_iff_eq]
            omega
          · exact ih c hc2 h128 halpha u
        · rw [if_neg h3]
          by_cases h4 : x == 46
          · rw [if_pos h4]
            exact fun h => Except.noConfusion h
          · rw [if_neg h4]
            by_cases h5 : 128 ≤ x
            · rw [if_pos h5]
              exact fun h => Except.noConfusion h
            · rw [if_neg h5]
              exact fun h => Except.noConfusion h

/-- When every byte before the offending one is a passing byte, the error
reported is exactly NonAsciiPatternByte. -/
theorem check_valid_first_high (alpha : List Nat) :
    ∀ pre c post, 128 ≤ c → ¬ c ∈ alpha →
      (∀ b ∈ pre, b = 1 ∨ b ∈ alpha ∨ b = 124 ∨ b = 43 ∨ b = 42 ∨ b = 40 ∨ b = 41) →
      check_regex_symbols_valid alpha (pre ++ c :: post) = .error .nonAsciiPatternByte := by
  intro pre
  induction pre with
  | nil =>
    intro c post h128 halpha _
    rw [List.nil_append]
    unfold check_regex_symbols_valid
    rw [if_neg (by simp only [beq_iff_eq]; omega : ¬ (c == 1) = true)]
    rw [if_neg (fun h => halpha ((is_alphabet_symbol_iff alpha c).mp h))]
    rw [if_neg (by simp only [Bool.or_eq_true, beq_iff_eq]; omega :
      ¬ (c == 124 || c == 43 || c == 42 || c == 40 || c == 41) = true)]
    rw [if_neg (by simp only [beq_iff_eq]; omega : ¬ (c == 46) = true)]
    rw [if_pos h128]
  | cons b rest ih =>
    intro c post h128 halpha hpre
    rw [List.cons_append,
      check_valid_cons_pass alpha b _ (hpre b (List.mem_cons_self b rest))]
    exact ih c post h128 halpha (fun x hx => hpre x (List.mem_cons_of_mem b hx))

/-- C6 amended: a byte at or above 128 that remains after the epsilon
rewrites and whitespace stripping makes compilation fail only when it is
not an alphabet symbol; in that case validation rejects the pattern, the
error is NonAsciiPatternByte whenever no invalid byte precedes it, and the
whole compiler pipeline rejects the input. -/
theorem claim_C6_amended (alpha : List Nat) :
    (∀ s c, c ∈ s → 128 ≤ c → ¬ c ∈ alpha →
      ∀ u, check_regex_symbols_valid alpha s ≠ .ok u) ∧
    (∀ pre c post, 128 ≤ c → ¬ c ∈ alpha →
      (∀ b ∈ pre, b = 1 ∨ b ∈ alpha ∨ b = 124 ∨ b = 43 ∨ b = 42 ∨ b = 40 ∨ b = 41) →
      check_regex_symbols_valid alpha (pre ++ c :: post) = .error .nonAsciiPatternByte) ∧
    (∀ lr la c, parse_alphabet_line la = .ok alpha → c ∈ preprocess_regex lr →
      128 ≤ c → ¬ c ∈ alpha → ∀ d, compile lr la ≠ .ok d) := by
  refine ⟨check_valid_high_byte alpha, check_valid_first_high alpha, ?_⟩
  intro lr la c hparse hc h128 halpha d hcomp
  obtain ⟨alpha2, _, _, _, _, hparse2, _, ⟨u, hcheck⟩, _, _⟩ := compile_inv lr la d hcomp
  rw [hparse] at hparse2
  injection hparse2 with halphaeq
  subst halphaeq
  exact check_valid_high_byte alpha (preprocess_regex lr) c hc h128 halpha u hcheck

/-- Witness for C6 amended, at the alphabet ab: the pattern a 0xCE a (a
stray UTF-8 lead byte after a passing symbol) is rejected by validation
with NonAsciiPatternByte, and the full pipeline rejects it too. -/
theorem claim_C6_amended_witness :
    check_regex_symbols_valid [97, 98] [97, 206, 97] = .error .nonAsciiPatternByte ∧
    compile [97, 206, 97, 97] [97, 98] ≠ .ok ⟨2, [97, 98], 1, 0, [0], [[0, 0]]⟩ := by
  constructor
  · exact (claim_C6_amended [97, 98]).2.1 [97] 206 [97] (by decide) (by decide)
      (by intro b hb; rcases List.mem_cons.mp hb with rfl | hb2
          · exact Or.inr (Or.inl (by decide))
          · cases hb2)
  · exact (claim_C6_amended [97, 98]).2.2 [97, 206, 97, 97] [97, 98] 206 (by rfl)
      (by decide) (by decide) (by decide) _

/-- The code-side insertion test agrees with the claim-side membership
condition. -/
theorem need_concat_iff (alpha : List Nat) (a b : Nat) :
    need_concat alpha a b = true ↔ concat_mark_spec alpha a b := by
  simp only [need_concat, is_atom_end, is_atom_start, concat_mark_spec,
    Bool.and_eq_true, Bool.or_eq_true, beq_iff_eq, is_alphabet_symbol_iff]
  tauto

/-- C7: for every token stream, the concatenation-insertion pass emits
exactly the stream with a dot marker between each adjacent pair (a, b)
such that a is an alphabet symbol, the epsilon sentinel, a right paren or
a star, and b is an alphabet symbol, the epsilon sentinel or a left paren
— and between no other pair, as the equality with the literally-transcribed
claim-side insertion shows. -/
theorem claim_C7 (alpha : List Nat) :
    ∀ l, add_concat_ops alpha l = add_concat_spec alpha l := by
  intro l
  induction l with
  | nil => rfl
  | cons a tail ih =>
    cases tail with
    | nil => rfl
    | cons b rest =>
      unfold add_concat_ops add_concat_spec
      by_cases h : concat_mark_spec alpha a b
      · rw [if_pos ((need_concat_iff alpha a b).mpr h), if_pos h, ih]
      · rw [if_neg (fun hb => h ((need_concat_iff alpha a b).mp hb)), if_neg h, ih]

/-- Replacing the element just past a prefix of known length. -/
theorem listModify_append {α : Type} (l : List α) (x : α) (ys : List α) (f : α → α) :
    listModify (l ++ x :: ys) l.length f = l ++ f x :: ys := by
  induction l with
  | nil => rfl
  | cons z zs ih => simpa [listModify] using ih

/-- Appending one edge to the first of the two freshly appended empty
edge lists. -/
theorem listModify_two_fresh (es : List (List Edge)) (e : Edge) :
    listModify (es ++ [[]] ++ [[]]) es.length (fun es2 => es2 ++ [e]) =
      es ++ [[e], []] := by
  induction es with
  | nil => rfl
  | cons x xs ih => simpa [listModify] using ih

/-- C10: the raw pattern byte 0x01 is the internal epsilon: the three
epsilon spellings (the five bytes of the ASCII token, the UTF-8 pair, and
the raw byte 1) preprocess to the same sentinel byte 1; the sentinel
passes pattern validation; and the Thompson builder consumes it by
allocating two fresh states joined by a single epsilon edge and pushing
that fragment, exactly as for the other two spellings, so a literal 0x01
denotes the empty string. -/
theorem claim_C10 :
    (∀ rest, preprocess_regex (60 :: 101 :: 112 :: 115 :: 62 :: rest) =
      1 :: preprocess_regex rest) ∧
    (∀ rest, preprocess_regex (206 :: 181 :: rest) = 1 :: preprocess_regex rest) ∧
    (∀ rest, preprocess_regex (1 :: rest) = 1 :: preprocess_regex rest) ∧
    (∀ alpha rest, check_regex_symbols_valid alpha (1 :: rest) =
      check_regex_symbols_valid alpha rest) ∧
    (∀ (alpha : List Nat) (g : Nfa) (st : List Frag) (rest : List Nat),
      ¬ (1 : Nat) ∈ alpha → g.edges.length = g.states → g.states + 1 < 4096 →
      postfix_to_nfa_go alpha g st (1 :: rest) =
        postfix_to_nfa_go alpha ⟨g.states + 2, g.edges ++ [[⟨g.states + 1, 0⟩], []]⟩
          (⟨g.states, g.states + 1⟩ :: st) rest) := by
  refine ⟨fun rest => rfl, fun rest => rfl, fun rest => rfl, fun alpha rest => rfl, ?_⟩
  intro alpha g st rest halpha hlen hstates
  obtain ⟨ns, es⟩ := g
  dsimp only at hlen hstates ⊢
  subst hlen
  have hA : ¬ is_alphabet_symbol alpha 1 = true := by
    intro h
    exact halpha ((is_alphabet_symbol_iff alpha 1).mp h)
  have hn1 : new_nfa_state ⟨es.length, es⟩ = .ok (es.length, ⟨es.length + 1, es ++ [[]]⟩) := by
    simp only [new_nfa_state]
    rw [if_neg (by omega)]
  have hn2 : new_nfa_state ⟨es.length + 1, es ++ [[]]⟩ =
      .ok (es.length + 1, ⟨es.length + 2, es ++ [[]] ++ [[]]⟩) := by
    simp only [new_nfa_state]
    rw [if_neg (by omega)]
  have hadd : add_edge ⟨es.length + 2, es ++ [[]] ++ [[]]⟩ es.length (es.length + 1) 0 =
      ⟨es.length + 2, es ++ [[⟨es.length + 1, 0⟩], []]⟩ := by
    simp only [add_edge]
    congr 1
    exact listModify_two_fresh es ⟨es.length + 1, 0⟩
  have hbind : ∀ {β : Type} (a : Nat × Nfa) (f : Nat × Nfa → Except Err β),
      (Except.ok (ε := Err) a >>= f) = f a := fun a f => rfl
  conv_lhs => unfold postfix_to_nfa_go
  rw [if_neg hA, if_pos (by decide : ((1 : Nat) == 1) = true)]
  simp only [hn1, hbind]
  simp only [hn2, hbind]
  rw [hadd]

/-- Witness for C10 at the empty NFA: consuming the sentinel byte 1 from
the postfix stream allocates states 0 and 1 joined by one epsilon edge. -/
theorem claim_C10_witness :
    postfix_to_nfa_go [97] ⟨0, []⟩ [] [1] =
      postfix_to_nfa_go [97] ⟨2, [[⟨1, 0⟩], []]⟩ [⟨0, 1⟩] [] := by
  exact claim_C10.2.2.2.2 [97] ⟨0, []⟩ [] [] (by decide) (by decide) (by decide)

/-- A parsed .dfa table as dfa_checker reads it: alphabet size and bytes,
state count, start state, per-state accepting flags, transition rows. -/
structure CDfa where
  k : Nat
  alphabet : List Nat
  n : Nat
  start : Nat
  acc : List Bool
  trans : List (List Nat)
  deriving DecidableEq, Repr

/-- alph_index: position of a byte in the alphabet; none is the C -1. -/
def alph_index (d : CDfa) (c : Nat) : Option Nat :=
  d.alphabet.findIdx? (fun x => x == c)

/-- The state-stepping loop of run_dfa. -/
def run_dfa_go (d : CDfa) (st : Nat) : List Nat → Option Bool
  | [] => some (d.acc.getD st false)
  | c :: rest =>
    match alph_index d c with
    | none => none
    | some idx => run_dfa_go d ((d.trans.getD st []).getD idx 0) rest

/-- run_dfa: accept/reject of the string, none when some byte is outside
the alphabet. -/
def run_dfa (d : CDfa) (s : List Nat) : Option Bool :=
  run_dfa_go d d.start s

/-- same_alphabet: equal size and equal byte sequence. -/
def same_alphabet (a b : CDfa) : Bool :=
  a.k == b.k && a.alphabet == b.alphabet

/-- The literal token <eps> denotes the empty string in a tests file. -/
def decode_tok (tok : List Nat) : List Nat :=
  if tok == [60, 101, 112, 115, 62] then [] else tok

/-- The per-line loop of the comparator main over the parsed effective
test lines: a label other than 0/1 or a missing token exits 1, a byte
outside the alphabet exits 1, the first divergence between the two DFAs
exits 2, and a label mismatching the reference is only a warning;
reaching the end is the PASS verdict, exit 0. -/
def check_tests (ref usr : CDfa) : List (Nat × List Nat) → Nat
  | [] => 0
  | (label, tok) :: rest =>
    if !(label == 0 || label == 1) then 1
    else if tok.isEmpty then 1
    else
      match run_dfa ref (decode_tok tok), run_dfa usr (decode_tok tok) with
      | some rr, some ru => if rr != ru then 2 else check_tests ref usr rest
      | _, _ => 1

/-- The comparator driver: differing alphabets exit 2, otherwise the test
loop decides. -/
def checker_main (ref usr : CDfa) (tests : List (Nat × List Nat)) : Nat :=
  if !same_alphabet ref usr then 2 else check_tests ref usr tests

/-- The test loop returns 0 whenever every line has a 0/1 label, a
non-missing token, and both DFAs return the same defined result on it. -/
theorem check_tests_pass (ref usr : CDfa) :
    ∀ tests : List (Nat × List Nat),
      (∀ p ∈ tests, p.1 ≤ 1 ∧ p.2 ≠ [] ∧
        ∃ r, run_dfa ref (decode_tok p.2) = some r ∧
          run_dfa usr (decode_tok p.2) = some r) →
      check_tests ref usr tests = 0 := by
  intro tests
  induction tests with
  | nil => intro _; rfl
  | cons p rest ih =>
    intro h
    obtain ⟨hlab, htok, r, hr, hu⟩ := h p (List.mem_cons_self p rest)
    obtain ⟨label, tok⟩ := p
    simp only [check_tests]
    have hlab2 : (label == 0 || label == 1) = true := by
      rcases Nat.le_one_iff_eq_zero_or_eq_one.mp hlab with rfl | rfl <;> decide
    rw [if_neg (by rw [hlab2]; decide)]
    have htok2 : tok.isEmpty = false := by
      cases tok
      · exact absurd rfl htok
      · rfl
    rw [if_neg (by rw [htok2]; decide)]
    rw [hr, hu]
    show (if (r != r) = true then (2 : Nat) else check_tests ref usr rest) = 0
    rw [bne_self_eq_false]
    rw [if_neg (by decide)]
    exact ih (fun q hq => h q (List.mem_cons_of_mem (label, tok) hq))

/-- C8: for every pair of DFA tables over the same alphabet and every
tests list of labeled tokens on which both DFAs produce the same defined
accept/reject result, the comparator exits with code 0 — the PASS verdict
— regardless of the labels: a label that disagrees with the reference
result only produces a warning, never a failure. -/
theorem claim_C8 (ref usr : CDfa) (tests : List (Nat × List Nat))
    (halpha : same_alphabet ref usr = true)
    (htests : ∀ p ∈ tests, p.1 ≤ 1 ∧ p.2 ≠ [] ∧
      ∃ r, run_dfa ref (decode_tok p.2) = some r ∧
        run_dfa usr (decode_tok p.2) = some r) :
    checker_main ref usr tests = 0 := by
  unfold checker_main
  rw [if_neg (by rw [halpha]; decide)]
  exact check_tests_pass ref usr tests htests

/-- Witness for C8: the 1-state all-accepting DFA over the alphabet a
compared against itself on the single test line labeled 0 with string a —
the label contradicts the reference result true, yet the exit code is 0. -/
theorem claim_C8_witness :
    checker_main ⟨1, [97], 1, 0, [true], [[0]]⟩ ⟨1, [97], 1, 0, [true], [[0]]⟩
      [(0, [97])] = 0 := by
  refine claim_C8 _ _ _ (by decide) ?_
  intro p hp
  rw [List.mem_singleton.mp hp]
  exact ⟨by decide, by decide, true, by decide, by decide⟩

/-- A default-0 read of a list of bounded naturals is bounded. -/
theorem getD_lt_of_bound (cls : List Nat) (m : Nat)
    (h1 : ∀ x ∈ cls, x < m) (h2 : 0 < m) (i : Nat) : cls.getD i 0 < m := by
  rcases Nat.lt_or_ge i cls.length with h | h
  · rw [List.getD_eq_getElem cls 0 h]
    exact h1 _ (List.getElem_mem h)
  · rw [List.getD_eq_default cls 0 h]
    exact h2

/-- Every entry of a class map after a block assignment was already there
or is the written index. -/
theorem cls_assign_mem (i : Nat) :
    ∀ (blk cls : List Nat) (x : Nat), x ∈ cls_assign cls blk i → x ∈ cls ∨ x = i := by
  intro blk
  induction blk with
  | nil => intro cls x hx; exact Or.inl hx
  | cons s ss ih =>
    intro cls x hx
    rcases ih (cls.set s i) x hx with h | h
    · rcases List.mem_or_eq_of_mem_set h with h2 | h2
      · exact Or.inl h2
      · exact Or.inr h2
    · exact Or.inr h

/-- One split step keeps every class index below the partition size, and
the partition never shrinks. -/
theorem hop_split_block_inv (mark : List Bool) (P : List (List Nat))
    (cls W : List Nat) (yi : Nat) (hinv : ∀ x ∈ cls, x < P.length) :
    (∀ x ∈ (hop_split_block mark P cls W yi).2.1,
      x < (hop_split_block mark P cls W yi).1.length) ∧
    P.length ≤ (hop_split_block mark P cls W yi).1.length := by
  simp only [hop_split_block]
  split
  · exact ⟨hinv, Nat.le_refl _⟩
  next hcond =>
    have hyi : yi < P.length := by
      by_contra hge
      apply hcond
      rw [List.getD_eq_default P [] (Nat.le_of_not_lt hge)]
      simp
    constructor
    · intro x hx
      have hlen2 : (P.set yi ((P.getD yi []).filter fun s => bs_get mark s) ++
          [(P.getD yi []).filter fun s => !bs_get mark s]).length = P.length + 1 := by
        simp [List.length_append, List.length_set]
      rw [hlen2]
      rcases cls_assign_mem _ _ _ x hx with hx2 | hx2
      · rcases cls_assign_mem _ _ _ x hx2 with hx3 | hx3
        · exact Nat.lt_succ_of_lt (hinv x hx3)
        · exact hx3 ▸ Nat.lt_succ_of_lt hyi
      · exact hx2 ▸ Nat.lt_succ_self _
    · simp [List.length_append, List.length_set]

/-- The block-visiting loop preserves the class-bound invariant and never
shrinks the partition. -/
theorem hop_refine_blocks_inv (mark : List Bool) :
    ∀ (fuel yi : Nat) (P : List (List Nat)) (cls W : List Nat)
      (out : List (List Nat) × List Nat × List Nat),
      hop_refine_blocks mark fuel yi P cls W = .ok out →
      (∀ x ∈ cls, x < P.length) →
      (∀ x ∈ out.2.1, x < out.1.length) ∧ P.length ≤ out.1.length := by
  intro fuel
  induction fuel with
  | zero => intro yi P cls W out h; exact Except.noConfusion h
  | succ f ih =>
    intro yi P cls W out h hinv
    simp only [hop_refine_blocks] at h
    split at h
    · rcases hsp : hop_split_block mark P cls W yi with ⟨P2, cls2, W2⟩
      rw [hsp] at h
      have hspinv := hop_split_block_inv mark P cls W yi hinv
      rw [hsp] at hspinv
      obtain ⟨hinv2, hle2⟩ := hspinv
      obtain ⟨hout, hle⟩ := ih (yi + 1) P2 cls2 W2 out h hinv2
      exact ⟨hout, Nat.le_trans hle2 hle⟩
    · injection h with h2
      subst h2
      exact ⟨hinv, Nat.le_refl _⟩

/-- The symbol loop preserves the class-bound invariant and never shrinks
the partition. -/
theorem hop_syms_inv (N : Nat) (inv : List (List (List Nat))) (ablock : Nat) :
    ∀ (arest : List Nat) (P : List (List Nat)) (cls W : List Nat)
      (out : List (List Nat) × List Nat × List Nat),
      hop_syms N inv ablock arest (P, cls, W) = .ok out →
      (∀ x ∈ cls, x < P.length) →
      (∀ x ∈ out.2.1, x < out.1.length) ∧ P.length ≤ out.1.length := by
  intro arest
  induction arest with
  | nil =>
    intro P cls W out h hinv
    injection h with h2
    subst h2
    exact ⟨hinv, Nat.le_refl _⟩
  | cons a arest2 ih =>
    intro P cls W out h hinv
    simp only [hop_syms] at h
    rcases h2 : hop_refine_blocks (hop_mark N inv a (P.getD ablock [])) (N + 2) 0 P cls W
      with e | st2
    · rw [h2] at h
      exact Except.noConfusion h
    · rw [h2] at h
      obtain ⟨P2, cls2, W2⟩ := st2
      obtain ⟨hinv2, hle2⟩ := hop_refine_blocks_inv _ _ _ _ _ _ _ h2 hinv
      obtain ⟨hout, hle⟩ := ih P2 cls2 W2 out h hinv2
      exact ⟨hout, Nat.le_trans hle2 hle⟩

/-- The outer worklist loop preserves the class-bound invariant and never
shrinks the partition. -/
theorem hop_main_inv (N k : Nat) (inv : List (List (List Nat))) :
    ∀ (fuel : Nat) (P : List (List Nat)) (cls W : List Nat)
      (out : List (List Nat) × List Nat),
      hop_main N k inv fuel (P, cls, W) = .ok out →
      (∀ x ∈ cls, x < P.length) →
      (∀ x ∈ out.2, x < out.1.length) ∧ P.length ≤ out.1.length := by
  intro fuel
  induction fuel with
  | zero => intro P cls W out h; exact Except.noConfusion h
  | succ f ih =>
    intro P cls W out h hinv
    simp only [hop_main] at h
    split at h
    · injection h with h2
      subst h2
      exact ⟨hinv, Nat.le_refl _⟩
    next ablock W2 =>
      rcases h2 : hop_syms N inv ablock (List.range k) (P, cls, W2) with e | st2
      · rw [h2] at h
        exact Except.noConfusion h
      · rw [h2] at h
        obtain ⟨P2, cls2, W3⟩ := st2
        obtain ⟨hinv2, hle2⟩ := hop_syms_inv N inv ablock (List.range k) P cls W2 _ h2 hinv
        obtain ⟨hout, hle⟩ := ih P2 cls2 W3 out h hinv2
        exact ⟨hout, Nat.le_trans hle2 hle⟩

/-- A successful core refinement returns a class map bounded by the class
count, which is positive. -/
theorem dfa_minimize_core_inv (k N : Nat) (T : List (List Nat)) (A : List Bool)
    (cls : List Nat) (m : Nat) (h : dfa_minimize_core k N T A = .ok (cls, m)) :
    (∀ x ∈ cls, x < m) ∧ 0 < m := by
  simp only [dfa_minimize_core] at h
  split at h
  · injection h with h2
    rw [Prod.mk.injEq] at h2
    obtain ⟨hc, hm⟩ := h2
    subst hc
    subst hm
    constructor
    · intro x hx
      rw [List.eq_of_mem_replicate hx]
      exact Nat.one_pos
    · exact Nat.one_pos
  · split at h
    · exact Except.noConfusion h
    next P2 cls2 hmain =>
      injection h with h2
      rw [Prod.mk.injEq] at h2
      obtain ⟨hc, hm⟩ := h2
      subst hc
      subst hm
      have hinv0 : ∀ (P0 P1 : List Nat) (x : Nat),
          x ∈ cls_assign (cls_assign (List.replicate N 0) P0 0) P1 1 → x < 2 := by
        intro P0 P1 x hx
        rcases cls_assign_mem _ _ _ x hx with hx2 | hx2
        · rcases cls_assign_mem _ _ _ x hx2 with hx3 | hx3
          · rw [List.eq_of_mem_replicate hx3]
            decide
          · rw [hx3]
            decide
        · rw [hx2]
          decide
      obtain ⟨hout, hle⟩ := hop_main_inv N k (build_inv k N T) (N + 2) _ _ _ _ hmain
        (by intro x hx
            simpa using hinv0 _ _ x hx)
      exact ⟨hout, Nat.lt_of_lt_of_le (by simp) hle⟩

/-- A successful minimization returns a class map bounded by the class
count, which is positive. -/
theorem dfa_minimize_cls_lt (k : Nat) (dfa : List DfaState) (cls : List Nat)
    (m : Nat) (nd : Bool) (h : dfa_minimize k dfa = .ok (cls, m, nd)) :
    (∀ x ∈ cls, x < m) ∧ 0 < m := by
  simp only [dfa_minimize] at h
  split at h
  · exact Except.noConfusion h
  next cls2 m2 hcore =>
    injection h with h2
    rw [Prod.mk.injEq, Prod.mk.injEq] at h2
    obtain ⟨hc, hm, _⟩ := h2
    subst hc
    subst hm
    exact dfa_minimize_core_inv _ _ _ _ _ _ hcore

/-- C2: for every pattern and alphabet the compiler accepts, the emitted
table is total and in range: there are exactly n transition rows of k
integers each, every transition target is below n, the start state is
below n, and every accepting id is below n. -/
theorem claim_C2 (lr la : List Nat) (d : MinDfa) (h : compile lr la = .ok d) :
    d.trans.length = d.n ∧
    (∀ row ∈ d.trans, row.length = d.k ∧ ∀ t ∈ row, t < d.n) ∧
    d.start < d.n ∧
    (∀ a ∈ d.accept, a < d.n) := by
  obtain ⟨alpha, dfa, cls, min_n, need_dead, hparse, hlen0, hcheck, hmin, hd⟩ :=
    compile_inv lr la d h
  obtain ⟨hcls, hm⟩ := dfa_minimize_cls_lt alpha.length dfa cls min_n need_dead hmin
  subst hd
  simp only [write_min_dfa]
  refine ⟨by simp, ?_, ?_, ?_⟩
  · intro row hrow
    simp only [List.mem_map, List.mem_range] at hrow
    obtain ⟨c, _, hrc⟩ := hrow
    constructor
    · rw [← hrc]
      simp
    · intro t ht
      rw [← hrc] at ht
      simp only [List.mem_map, List.mem_range] at ht
      obtain ⟨a, _, hta⟩ := ht
      rw [← hta]
      exact getD_lt_of_bound cls min_n hcls hm _
  · exact getD_lt_of_bound cls min_n hcls hm 0
  · intro a ha
    exact List.mem_range.mp (List.mem_filter.mp ha).1

/-- Witness for C2 at the a* run: the emitted 1-state table is total and
in range. -/
theorem claim_C2_witness :
    (⟨1, [97], 1, 0, [0], [[0]]⟩ : MinDfa).trans.length = (⟨1, [97], 1, 0, [0], [[0]]⟩ : MinDfa).n ∧
    (∀ row ∈ (⟨1, [97], 1, 0, [0], [[0]]⟩ : MinDfa).trans,
      row.length = (⟨1, [97], 1, 0, [0], [[0]]⟩ : MinDfa).k ∧
      ∀ t ∈ row, t < (⟨1, [97], 1, 0, [0], [[0]]⟩ : MinDfa).n) ∧
    (⟨1, [97], 1, 0, [0], [[0]]⟩ : MinDfa).start < (⟨1, [97], 1, 0, [0], [[0]]⟩ : MinDfa).n ∧
    (∀ a ∈ (⟨1, [97], 1, 0, [0], [[0]]⟩ : MinDfa).accept,
      a < (⟨1, [97], 1, 0, [0], [[0]]⟩ : MinDfa).n) := by
  exact claim_C2 [97, 42] [97] ⟨1, [97], 1, 0, [0], [[0]]⟩ (by rfl)

/-- One breadth step over the emitted rows: additionally mark every row
target of an already marked state. -/
def min_reach_step (rows : List (List Nat)) (seen : List Bool) : List Bool :=
  (List.range seen.length).foldl
    (fun acc u =>
      if bs_get seen u then (rows.getD u []).foldl (fun a2 v => bs_set a2 v) acc
      else acc)
    seen

/-- The states reachable from the emitted start state by following the
emitted transition rows: n breadth steps from the start singleton cover
every path, since a shortest path visits no state twice. -/
def min_reachable (d : MinDfa) : List Bool :=
  (min_reach_step d.trans)^[d.n] (bs_set (List.replicate d.n false) d.start)

set_option maxRecDepth 10000 in
/-- C9, evaluated at the failing input: compiling the pattern
b|\x3ceps\x3e|bba (bytes 98 124 60 101 112 115 62 124 98 98 97) over the
alphabet ab emits a 4-state DFA with start state 3 in which states 0 and 2
are not reachable from the start by the emitted rows, contradicting the
claim that every emitted state is reachable. The same emitted automaton
rejects bba, a word of the pattern, and accepts bb, a word not of the
pattern, witnessing that the minimizer (which loses the discarded half of
a popped block as a splitter when that block splits against itself) has
merged inequivalent states. -/
theorem claim_C9 :
    compile [98, 124, 60, 101, 112, 115, 62, 124, 98, 98, 97] [97, 98] =
      .ok ⟨2, [97, 98], 4, 3, [0, 3], [[1, 1], [1, 1], [0, 1], [1, 3]]⟩ ∧
    bs_get (min_reachable ⟨2, [97, 98], 4, 3, [0, 3], [[1, 1], [1, 1], [0, 1], [1, 3]]⟩) 0
      = false ∧
    bs_get (min_reachable ⟨2, [97, 98], 4, 3, [0, 3], [[1, 1], [1, 1], [0, 1], [1, 3]]⟩) 2
      = false ∧
    run_dfa ⟨2, [97, 98], 4, 3, [true, false, false, true], [[1, 1], [1, 1], [0, 1], [1, 3]]⟩
      [98, 98, 97] = some false ∧
    run_dfa ⟨2, [97, 98], 4, 3, [true, false, false, true], [[1, 1], [1, 1], [0, 1], [1, 3]]⟩
      [98, 98] = some true := by
  refine ⟨by rfl, by rfl, by rfl, by rfl, by rfl⟩

end Badabing
